import Mathlib

set_option maxHeartbeats 1000000

/-
Verification development for scripts/accuracy/eval.py of the
shughni_morphology repository.

Strings are modelled as `List Char` (Python `str`), Python exceptions as
`Except EvalErr`, and the regular-expression scans of the source as explicit
left-to-right scanners with the same leftmost-match, non-overlapping
semantics.  Each definition carries a comment pointing at the source lines
it embeds.
-/

namespace ShughniEval

/-- Exceptions that the evaluation pipeline can raise: the RuntimeError of
compare (eval.py line 231), IndexError (`[0]` on an empty list /
`findall(...)[0]` with no match), and KeyError (dict lookup). -/
inductive EvalErr where
  | lengthMismatch
  | indexError
  | keyError
deriving DecidableEq

deriving instance DecidableEq for Except

/-- The ParsedItem dataclass (eval.py lines 91-101). -/
structure ParsedItem where
  input_str : List Char
  out_variants : List (List Char)
deriving DecidableEq

/-- Verdict column written by log_details (eval.py lines 240, 249, 252). -/
inductive Verdict where
  | CORRECT
  | FAIL
  | UNKNOWN
deriving DecidableEq

/-- One row appended by log_details (eval.py lines 195-202): target file
(metric name or "unknown"), wordform, reference, '/'-joined variants,
verdict. -/
structure Detail where
  file : String
  wordform : List Char
  reference : List Char
  output : List Char
  verdict : Verdict
deriving DecidableEq

/-- Per-metric slice of the result dict: correct / recognized counts and the
'acc' value (eval.py lines 234-235, 254-259). -/
structure AccEntry where
  correct : Nat
  recognized : Nat
  acc : ℚ
deriving DecidableEq

/-- The dict returned by compare (eval.py lines 260-264), extended with the
chronological list of rows handed to log_details (file side effects in the
source; a no-op when --details-dir is absent). -/
structure RunResult where
  total : Nat
  recognized : Nat
  accuracy : List (String × AccEntry)
  details : List Detail
deriving DecidableEq

/-- Convenience: the character list of a string literal. -/
def chars (s : String) : List Char := s.data

/-- Character class `[^<>]` used by the stem / tag regexes. -/
def nonAngle (c : Char) : Bool := c != '<' && c != '>'

/-- Character class `[^<>\n]` used by the pos regex (eval.py line 172). -/
def nonAngleNL (c : Char) : Bool := c != '<' && c != '>' && c != '\n'

/-- Character class `[^\^\$]` used by parse_apertium (eval.py line 106). -/
def notCaretDollar (c : Char) : Bool := c != '^' && c != '$'

/-- Python str.replace: replace every occurrence of `pat` by `rep`, scanning
left to right, non-overlapping.  (With an empty pattern Python inserts
`rep` between all characters; the patterns used by the source are the
non-empty literals of tag_aliases and non-empty stems, so that case is
unreachable and this model leaves the string unchanged there.) -/
def replaceGo (pat rep : List Char) : Nat → List Char → List Char
  | _, [] => []
  | 0, s => s
  | fuel + 1, c :: rest =>
    if pat ≠ [] ∧ pat.isPrefixOf (c :: rest) then
      rep ++ replaceGo pat rep fuel ((c :: rest).drop pat.length)
    else
      c :: replaceGo pat rep fuel rest

def replaceL (pat rep s : List Char) : List Char := replaceGo pat rep s.length s

/-- Python str.split('/') (eval.py line 108): empty segments are kept,
a string with no '/' yields a single segment. -/
def splitSlash : List Char → List (List Char)
  | [] => [[]]
  | c :: rest =>
    match splitSlash rest with
    | [] => [[]]
    | p :: ps => if c = '/' then [] :: p :: ps else (c :: p) :: ps

/-- Python '/'.join (ParsedItem.variants, eval.py lines 96-97). -/
def joinSlash (vs : List (List Char)) : List Char := List.intercalate ['/'] vs

/-- All spans matched by `re.finditer(r'\^([^\^\$]+)\$', stdout)`
(eval.py line 106): leftmost-first, non-overlapping, the group being the
non-empty caret/dollar-free run between the delimiters. -/
def spansGo : Nat → List Char → List (List Char)
  | _, [] => []
  | 0, _ => []
  | fuel + 1, c :: rest =>
    if c = '^' then
      let r := rest.takeWhile notCaretDollar
      if r = [] then spansGo fuel rest
      else
        if (rest.drop r.length).head? = some '$' then
          r :: spansGo fuel (rest.drop r.length).tail
        else spansGo fuel rest
    else spansGo fuel rest

def findSpans (s : List Char) : List (List Char) := spansGo s.length s

/-- Builds one ParsedItem from a span's group text (eval.py lines 108-110):
split on '/', the head is input_str, the tail the out_variants. -/
def mkItem (content : List Char) : ParsedItem :=
  match splitSlash content with
  | [] => ⟨[], []⟩
  | i :: vs => ⟨i, vs⟩

/-- parse_apertium (eval.py lines 103-111). -/
def parse_apertium (stdout : List Char) : List ParsedItem :=
  (findSpans stdout).map mkItem

/-- One attempt of the stem regex `>?([^<>]+)<` at the current position
(eval.py line 135): an optional leading '>', then a non-empty greedy
angle-free run, then '<'; the group is the run. -/
def stemTry (s : List Char) : Option (List Char) :=
  let s' := if s.head? = some '>' then s.tail else s
  let r := s'.takeWhile nonAngle
  if r = [] then none
  else if (s'.drop r.length).head? = some '<' then some r
  else none

/-- Leftmost match of the stem regex: `re.findall(r'>?([^<>]+)<', s)[0]`
scans start positions left to right. -/
def findStem : List Char → Option (List Char)
  | [] => none
  | c :: rest =>
    match stemTry (c :: rest) with
    | some r => some r
    | none => findStem rest

/-- get_stem (eval.py lines 134-135); `findall(...)[0]` raises IndexError
when there is no match. -/
def get_stem (tagged : List Char) : Except EvalErr (List Char) :=
  match findStem tagged with
  | some r => .ok r
  | none => .error .indexError

/-- One attempt of the pos regex `[^<>\n]+<([^<>]+)>` (eval.py line 172)
at the current position. -/
def posTry (s : List Char) : Option (List Char) :=
  let r1 := s.takeWhile nonAngleNL
  if r1 = [] then none
  else if (s.drop r1.length).head? = some '<' then
    let rest := (s.drop r1.length).tail
    let r2 := rest.takeWhile nonAngle
    if r2 = [] then none
    else if (rest.drop r2.length).head? = some '>' then some r2
    else none
  else none

/-- Leftmost match of the pos regex. -/
def findPos : List Char → Option (List Char)
  | [] => none
  | c :: rest =>
    match posTry (c :: rest) with
    | some r => some r
    | none => findPos rest

/-- The `re.findall(pos_pattern, tagged)[0]` step of match_pos
(eval.py lines 173-174). -/
def getPosTag (tagged : List Char) : Except EvalErr (List Char) :=
  match findPos tagged with
  | some r => .ok r
  | none => .error .indexError

/-- All matches of `re.findall(r'<[^<>]+>', tagged)` (eval.py lines
181-182): leftmost-first, non-overlapping, whole-match strings. -/
def tagsGo : Nat → List Char → List (List Char)
  | _, [] => []
  | 0, _ => []
  | fuel + 1, c :: rest =>
    if c = '<' then
      let r := rest.takeWhile nonAngle
      if r = [] then tagsGo fuel rest
      else
        if (rest.drop r.length).head? = some '>' then
          ('<' :: (r ++ ['>'])) :: tagsGo fuel (rest.drop r.length).tail
        else tagsGo fuel rest
    else tagsGo fuel rest

def findTags (s : List Char) : List (List Char) := tagsGo s.length s

/-- A metric of the registry: `(str, str) -> bool`, possibly raising. -/
abbrev Metric := List Char → List Char → Except EvalErr Bool

/-- match_exact (eval.py lines 163-164). -/
def match_exact (tagged1 tagged2 : List Char) : Except EvalErr Bool :=
  .ok (tagged1 == tagged2)

/-- match_stem (eval.py lines 166-169). -/
def match_stem (tagged1 tagged2 : List Char) : Except EvalErr Bool :=
  match get_stem tagged1 with
  | .error e => .error e
  | .ok s1 =>
    match get_stem tagged2 with
    | .error e => .error e
    | .ok s2 => .ok (s1 == s2)

/-- match_pos (eval.py lines 171-175). -/
def match_pos (tagged1 tagged2 : List Char) : Except EvalErr Bool :=
  match getPosTag tagged1 with
  | .error e => .error e
  | .ok p1 =>
    match getPosTag tagged2 with
    | .error e => .error e
    | .ok p2 => .ok (p1 == p2)

/-- match_stem_and_pos (eval.py lines 177-178); Python `and` short-circuits,
so match_pos is not evaluated when the stems differ. -/
def match_stem_and_pos (tagged1 tagged2 : List Char) : Except EvalErr Bool :=
  match match_stem tagged1 tagged2 with
  | .error e => .error e
  | .ok false => .ok false
  | .ok true => match_pos tagged1 tagged2

/-- match_unordered (eval.py lines 180-183): the findall calls cannot raise;
match_stem can, and it is evaluated first in the returned conjunction. -/
def match_unordered (tagged1 tagged2 : List Char) : Except EvalErr Bool :=
  match match_stem tagged1 tagged2 with
  | .error e => .error e
  | .ok b =>
    .ok (b && decide ((findTags tagged1).toFinset = (findTags tagged2).toFinset))

/-- accuracy_funcs registry (eval.py lines 185-191), in insertion order. -/
def accuracy_funcs : List (String × Metric) :=
  [("exact_match", match_exact),
   ("stem_match", match_stem),
   ("pos_match", match_pos),
   ("stem_and_pos_match", match_stem_and_pos),
   ("unordered_tags_match", match_unordered)]

/-- tag_aliases (eval.py lines 46-49), in insertion order. -/
def tag_aliases : List (List Char × List Char) :=
  [(chars "<lat>", chars "<dat>"), (chars "<o>", chars "<obl>")]

/-- The per-string body of replace_aliases (eval.py lines 225-226): apply
each alias substitution in the fixed dict order. -/
def applyAliases (s : List Char) : List Char :=
  tag_aliases.foldl (fun acc p => replaceL p.1 p.2 acc) s

/-- replace_aliases (eval.py lines 223-226); the in-place mutation of the
list is modelled as returning the rewritten list. -/
def replace_aliases (tagged : List (List Char)) : List (List Char) :=
  tagged.map applyAliases

/-- First loop of make_latin, inner part (eval.py lines 143-145): record the
stem of every variant as a dict key (value reset to []); Python dicts keep
first-insertion order, so this is append-if-absent on the key list. -/
def gatherVars : List (List Char) → List (List Char) → Except EvalErr (List (List Char))
  | [], acc => .ok acc
  | v :: vs, acc =>
    match get_stem v with
    | .error e => .error e
    | .ok s => gatherVars vs (if s ∈ acc then acc else acc ++ [s])

/-- First loop of make_latin (eval.py lines 140-145): items whose first
variant contains '*' are skipped; `out_variants[0]` raises on an empty
list. -/
def gatherStems : List ParsedItem → List (List Char) → Except EvalErr (List (List Char))
  | [], acc => .ok acc
  | it :: rest, acc =>
    match it.out_variants with
    | [] => .error .indexError
    | v0 :: _ =>
      if '*' ∈ v0 then gatherStems rest acc
      else
        match gatherVars it.out_variants acc with
        | .error e => .error e
        | .ok acc2 => gatherStems rest acc2

/-- Python dict assignment `d[k] = v`: update in place if the key exists,
else append. -/
def dictSet (d : List (List Char × List (List Char))) (k : List Char)
    (v : List (List Char)) : List (List Char × List (List Char)) :=
  if d.any (fun p => p.1 == k) then
    d.map (fun p => if p.1 == k then (k, v) else p)
  else d ++ [(k, v)]

/-- Second loop of make_latin (eval.py lines 147-148): store each lookup
result under its input string. -/
def applyLookup (d : List (List Char × List (List Char))) :
    List ParsedItem → List (List Char × List (List Char))
  | [] => d
  | t :: ts => applyLookup (dictSet d t.input_str t.out_variants) ts

/-- Python dict read `d[k]`. -/
def dictGet (d : List (List Char × List (List Char))) (k : List Char) :
    Option (List (List Char)) :=
  match d.find? (fun p => p.1 == k) with
  | some p => some p.2
  | none => none

/-- Third loop of make_latin, inner part (eval.py lines 153-157): expand
each variant into one copy per transliterated stem, replacing every
occurrence of the stem; `cyr2lat[stem]` raises KeyError when absent. -/
def rewriteVars (d : List (List Char × List (List Char))) :
    List (List Char) → Except EvalErr (List (List Char))
  | [] => .ok []
  | v :: vs =>
    match get_stem v with
    | .error e => .error e
    | .ok stem =>
      match dictGet d stem with
      | none => .error .keyError
      | some lats =>
        match rewriteVars d vs with
        | .error e => .error e
        | .ok rest => .ok (lats.map (fun lat => replaceL stem lat v) ++ rest)

/-- Third loop of make_latin (eval.py lines 150-158): unknown items are
skipped (left untouched), others get their variants list replaced
wholesale. -/
def rewriteItems (d : List (List Char × List (List Char))) :
    List ParsedItem → Except EvalErr (List ParsedItem)
  | [] => .ok []
  | it :: rest =>
    match it.out_variants with
    | [] => .error .indexError
    | v0 :: _ =>
      if '*' ∈ v0 then
        match rewriteItems d rest with
        | .error e => .error e
        | .ok r => .ok (it :: r)
      else
        match rewriteVars d it.out_variants with
        | .error e => .error e
        | .ok nv =>
          match rewriteItems d rest with
          | .error e => .error e
          | .ok r => .ok ({ it with out_variants := nv } :: r)

/-- make_latin (eval.py lines 137-158).  `lookup` stands for the
hfst_lookup subprocess call on the secondary transducer; the returned
second component records the argument of each lookup invocation (the
source performs exactly one, on line 147). -/
def make_latin (lookup : List (List Char) → List ParsedItem)
    (items : List ParsedItem) :
    Except EvalErr (List ParsedItem × List (List (List Char))) :=
  match gatherStems items [] with
  | .error e => .error e
  | .ok batch =>
    let d0 := batch.map (fun k => (k, ([] : List (List Char))))
    let d := applyLookup d0 (lookup batch)
    match rewriteItems d items with
    | .error e => .error e
    | .ok res => .ok (res, [batch])

/-- Inner variant loop of compare (eval.py lines 245-250): test the metric
against each candidate variant in order, stopping at the first match. -/
def firstMatch (f : Metric) (ref : List Char) :
    List (List Char) → Except EvalErr Bool
  | [] => .ok false
  | v :: vs =>
    match f ref v with
    | .error e => .error e
    | .ok true => .ok true
    | .ok false => firstMatch f ref vs

/-- Metric loop of compare for one recognized item (eval.py lines 243-252).
`isCorrect` threads the source's `is_correct` flag, which is initialized
once per item (line 238) and never reset between metrics; the returned
list pairs each metric name with whether some variant matched, and the
Details are the log_details rows emitted for this item. -/
def runMetrics (ref : List Char) (pred : ParsedItem) :
    List (String × Metric) → Bool → Except EvalErr (List (String × Bool) × List Detail)
  | [], _ => .ok ([], [])
  | (name, f) :: fs, isCorrect =>
    match firstMatch f ref pred.out_variants with
    | .error e => .error e
    | .ok m =>
      let ds := if m then
                  [⟨name, pred.input_str, ref, joinSlash pred.out_variants, .CORRECT⟩]
                else if isCorrect then []
                else [⟨name, pred.input_str, ref, joinSlash pred.out_variants, .FAIL⟩]
      match runMetrics ref pred fs (isCorrect || m) with
      | .error e => .error e
      | .ok (rs, ds2) => .ok ((name, m) :: rs, ds ++ ds2)

/-- Add one recognized item's per-metric outcomes to the running counts
(eval.py lines 244, 248): recognized += 1 for every metric, correct += 1
for the metrics that matched. -/
def mergeCounts : List (String × Bool) → List (String × Nat × Nat) → List (String × Nat × Nat)
  | [], _ => []
  | _ :: _, [] => []
  | (n, m) :: rs, (_, c, r) :: cs =>
    (n, c + (if m then 1 else 0), r + 1) :: mergeCounts rs cs

/-- Main loop of compare (eval.py lines 237-252) over the zipped
(reference, predicted) pairs, producing the global recognized count, the
per-metric absolute counts, and the log_details rows in order. -/
def compareLoop (funcs : List (String × Metric)) :
    List (List Char × ParsedItem) →
    Except EvalErr (Nat × List (String × Nat × Nat) × List Detail)
  | [] => .ok (0, funcs.map (fun p => (p.1, 0, 0)), [])
  | (ref, pred) :: rest =>
    match pred.out_variants with
    | [] => .error .indexError
    | v0 :: _ =>
      if '*' ∈ v0 then
        match compareLoop funcs rest with
        | .error e => .error e
        | .ok (rec, counts, ds) =>
          .ok (rec, counts,
               ⟨"unknown", pred.input_str, ref, joinSlash pred.out_variants, .UNKNOWN⟩ :: ds)
      else
        match runMetrics ref pred funcs false with
        | .error e => .error e
        | .ok (results, ds1) =>
          match compareLoop funcs rest with
          | .error e => .error e
          | .ok (rec, counts, ds2) =>
            .ok (rec + 1, mergeCounts results counts, ds1 ++ ds2)

/-- The 'acc' computation (eval.py lines 254-259): correct / recognized,
defined as 0 when recognized is 0. -/
def mkAcc (c r : Nat) : AccEntry :=
  ⟨c, r, if r = 0 then 0 else (c : ℚ) / (r : ℚ)⟩

/-- compare (eval.py lines 228-264).  The RuntimeError of line 231 is the
lengthMismatch error; log_details rows are collected in the details
field. -/
def compare (reference : List (List Char)) (predicted : List ParsedItem)
    (funcs : List (String × Metric)) : Except EvalErr RunResult :=
  if reference.length ≠ predicted.length then .error .lengthMismatch
  else
    match compareLoop funcs (reference.zip predicted) with
    | .error e => .error e
    | .ok (rec, counts, ds) =>
      .ok ⟨reference.length, rec,
           counts.map (fun c => (c.1, mkAcc c.2.1 c.2.2)), ds⟩

/-! Unfolding lemmas for replaceL: the fuel argument is irrelevant as long
as it dominates the length of the string. -/

theorem replaceGo_fuel (pat rep : List Char) :
    ∀ fuel fuel' s, s.length ≤ fuel → s.length ≤ fuel' →
      replaceGo pat rep fuel s = replaceGo pat rep fuel' s := by
  intro fuel
  induction fuel with
  | zero =>
    intro fuel' s hs _
    have : s = [] := List.length_eq_zero.1 (Nat.le_zero.1 hs)
    subst this
    cases fuel' <;> rfl
  | succ n ih =>
    intro fuel' s hs hs'
    cases s with
    | nil => cases fuel' <;> rfl
    | cons c rest =>
      cases fuel' with
      | zero =>
        simp only [List.length_cons] at hs'
        omega
      | succ m =>
        simp only [replaceGo]
        by_cases hb : pat ≠ [] ∧ pat.isPrefixOf (c :: rest)
        · rw [if_pos hb, if_pos hb]
          have hp : 1 ≤ pat.length := List.length_pos.2 hb.1
          simp only [List.length_cons] at hs hs'
          have hd : ((c :: rest).drop pat.length).length ≤ n := by
            simp only [List.length_drop, List.length_cons]
            omega
          have hd' : ((c :: rest).drop pat.length).length ≤ m := by
            simp only [List.length_drop, List.length_cons]
            omega
          rw [ih m _ hd hd']
        · rw [if_neg hb, if_neg hb]
          simp only [List.length_cons] at hs hs'
          rw [ih m rest (by omega) (by omega)]

theorem replaceL_nil (pat rep : List Char) : replaceL pat rep [] = [] := rfl

theorem replaceL_pos (pat rep : List Char) (c : Char) (rest : List Char)
    (h1 : pat ≠ []) (h2 : pat <+: (c :: rest)) :
    replaceL pat rep (c :: rest) = rep ++ replaceL pat rep ((c :: rest).drop pat.length) := by
  have hp : 1 ≤ pat.length := List.length_pos.2 h1
  show replaceGo pat rep (c :: rest).length (c :: rest) = _
  simp only [List.length_cons, replaceGo]
  rw [if_pos ⟨h1, List.isPrefixOf_iff_prefix.2 h2⟩]
  congr 1
  apply replaceGo_fuel
  · simp only [List.length_drop, List.length_cons]
    omega
  · exact le_rfl

theorem replaceL_neg (pat rep : List Char) (c : Char) (rest : List Char)
    (h : ¬ (pat ≠ [] ∧ pat <+: (c :: rest))) :
    replaceL pat rep (c :: rest) = c :: replaceL pat rep rest := by
  show replaceGo pat rep (c :: rest).length (c :: rest) = _
  simp only [List.length_cons, replaceGo]
  rw [if_neg (fun hb => h ⟨hb.1, List.isPrefixOf_iff_prefix.1 hb.2⟩)]
  rfl

/-- A string with no occurrence of the pattern is left unchanged. -/
theorem replaceL_no_occurrence (pat rep : List Char) :
    ∀ s, ¬ pat <:+: s → replaceL pat rep s = s := by
  intro s
  induction s with
  | nil => intro _; exact replaceL_nil pat rep
  | cons c rest ih =>
    intro h
    have hnp : ¬ (pat ≠ [] ∧ pat <+: (c :: rest)) := by
      rintro ⟨-, hp⟩
      exact h hp.isInfix
    rw [replaceL_neg pat rep c rest hnp]
    have : ¬ pat <:+: rest := fun hi => h (List.infix_cons_iff.2 (Or.inr hi))
    rw [ih this]

/-- Head character of a nonempty replacement dominates: a prefix of the
replacement output avoiding that character comes from the input. -/
theorem prefix_of_replaceL (pat : List Char) (r0 : Char) (rrest : List Char) :
    ∀ s w, r0 ∉ w → w <+: replaceL pat (r0 :: rrest) s → w <+: s := by
  intro s
  induction s with
  | nil =>
    intro w _ h
    rw [replaceL_nil] at h
    exact h
  | cons c rest ih =>
    intro w hw h
    by_cases hc : pat ≠ [] ∧ pat <+: (c :: rest)
    · rw [replaceL_pos pat _ c rest hc.1 hc.2] at h
      cases w with
      | nil => exact List.nil_prefix
      | cons w0 wt =>
        obtain ⟨he, -⟩ := List.cons_prefix_iff.1 h
        exact absurd (he ▸ List.mem_cons_self w0 wt) hw
    · rw [replaceL_neg pat _ c rest hc] at h
      cases w with
      | nil => exact List.nil_prefix
      | cons w0 wt =>
        obtain ⟨he, ht⟩ := List.cons_prefix_iff.1 h
        have hw' : r0 ∉ wt := fun hm => hw (List.mem_cons_of_mem _ hm)
        exact List.cons_prefix_iff.2 ⟨he, ih wt hw' ht⟩

/-- Helper: lists with different head characters are not prefixes. -/
theorem not_prefix_head {a b : Char} {l1 l2 : List Char} (hne : a ≠ b) :
    ¬ (a :: l1 <+: b :: l2) :=
  fun hp => hne (List.cons_prefix_iff.1 hp).1

/-- After replacing every `<lat>` by `<dat>`, no `<lat>` remains. -/
theorem no_lat_after_lat (s : List Char) :
    ¬ ['<', 'l', 'a', 't', '>'] <:+: replaceL ['<', 'l', 'a', 't', '>'] ['<', 'd', 'a', 't', '>'] s := by
  generalize hn : s.length = n
  induction n using Nat.strong_induction_on generalizing s with
  | _ n ih =>
    cases s with
    | nil =>
      rw [replaceL_nil]
      intro h
      have := h.sublist.length_le
      simp at this
    | cons c rest =>
      by_cases hc : (['<', 'l', 'a', 't', '>'] : List Char) ≠ [] ∧
          ['<', 'l', 'a', 't', '>'] <+: (c :: rest)
      · rw [replaceL_pos _ _ c rest hc.1 hc.2]
        intro hinf
        rcases List.infix_cons_iff.1 hinf with h1 | hinf
        · obtain ⟨-, h1⟩ := List.cons_prefix_iff.1 h1
          exact not_prefix_head (by decide) h1
        rcases List.infix_cons_iff.1 hinf with h1 | hinf
        · exact not_prefix_head (by decide) h1
        rcases List.infix_cons_iff.1 hinf with h1 | hinf
        · exact not_prefix_head (by decide) h1
        rcases List.infix_cons_iff.1 hinf with h1 | hinf
        · exact not_prefix_head (by decide) h1
        rcases List.infix_cons_iff.1 hinf with h1 | hinf
        · exact not_prefix_head (by decide) h1
        have hlen : ((c :: rest).drop 5).length < n := by
          simp only [List.length_drop, List.length_cons]
          subst hn
          simp only [List.length_cons]
          have h5 : 5 ≤ rest.length + 1 := by
            have := hc.2.sublist.length_le
            simpa using this
          omega
        exact ih _ hlen _ rfl hinf
      · rw [replaceL_neg _ _ c rest hc]
        intro hinf
        rcases List.infix_cons_iff.1 hinf with h1 | hinf
        · obtain ⟨he, ht⟩ := List.cons_prefix_iff.1 h1
          have h3 : ['l', 'a', 't', '>'] <+: rest :=
            prefix_of_replaceL _ '<' _ rest _ (by decide) ht
          exact hc ⟨by decide, List.cons_prefix_iff.2 ⟨he, h3⟩⟩
        · have hlen : rest.length < n := by
            subst hn; simp
          exact ih _ hlen _ rfl hinf

/-- After replacing every `<o>` by `<obl>`, no `<o>` remains. -/
theorem no_o_after_o (s : List Char) :
    ¬ ['<', 'o', '>'] <:+: replaceL ['<', 'o', '>'] ['<', 'o', 'b', 'l', '>'] s := by
  generalize hn : s.length = n
  induction n using Nat.strong_induction_on generalizing s with
  | _ n ih =>
    cases s with
    | nil =>
      rw [replaceL_nil]
      intro h
      have := h.sublist.length_le
      simp at this
    | cons c rest =>
      by_cases hc : (['<', 'o', '>'] : List Char) ≠ [] ∧ ['<', 'o', '>'] <+: (c :: rest)
      · rw [replaceL_pos _ _ c rest hc.1 hc.2]
        intro hinf
        rcases List.infix_cons_iff.1 hinf with h1 | hinf
        · obtain ⟨-, h1⟩ := List.cons_prefix_iff.1 h1
          obtain ⟨-, h1⟩ := List.cons_prefix_iff.1 h1
          exact not_prefix_head (by decide) h1
        rcases List.infix_cons_iff.1 hinf with h1 | hinf
        · exact not_prefix_head (by decide) h1
        rcases List.infix_cons_iff.1 hinf with h1 | hinf
        · exact not_prefix_head (by decide) h1
        rcases List.infix_cons_iff.1 hinf with h1 | hinf
        · exact not_prefix_head (by decide) h1
        rcases List.infix_cons_iff.1 hinf with h1 | hinf
        · exact not_prefix_head (by decide) h1
        have hlen : ((c :: rest).drop 3).length < n := by
          simp only [List.length_drop, List.length_cons]
          subst hn
          simp only [List.length_cons]
          have h3 : 3 ≤ rest.length + 1 := by
            have := hc.2.sublist.length_le
            simpa using this
          omega
        exact ih _ hlen _ rfl hinf
      · rw [replaceL_neg _ _ c rest hc]
        intro hinf
        rcases List.infix_cons_iff.1 hinf with h1 | hinf
        · obtain ⟨he, ht⟩ := List.cons_prefix_iff.1 h1
          have h3 : ['o', '>'] <+: rest :=
            prefix_of_replaceL _ '<' _ rest _ (by decide) ht
          exact hc ⟨by decide, List.cons_prefix_iff.2 ⟨he, h3⟩⟩
        · have hlen : rest.length < n := by
            subst hn; simp
          exact ih _ hlen _ rfl hinf

/-- Replacing `<o>` by `<obl>` cannot create an occurrence of `<lat>`. -/
theorem no_lat_after_o (s : List Char)
    (hs : ¬ ['<', 'l', 'a', 't', '>'] <:+: s) :
    ¬ ['<', 'l', 'a', 't', '>'] <:+: replaceL ['<', 'o', '>'] ['<', 'o', 'b', 'l', '>'] s := by
  generalize hn : s.length = n
  induction n using Nat.strong_induction_on generalizing s with
  | _ n ih =>
    cases s with
    | nil =>
      rw [replaceL_nil]
      exact hs
    | cons c rest =>
      by_cases hc : (['<', 'o', '>'] : List Char) ≠ [] ∧ ['<', 'o', '>'] <+: (c :: rest)
      · rw [replaceL_pos _ _ c rest hc.1 hc.2]
        intro hinf
        rcases List.infix_cons_iff.1 hinf with h1 | hinf
        · obtain ⟨-, h1⟩ := List.cons_prefix_iff.1 h1
          exact not_prefix_head (by decide) h1
        rcases List.infix_cons_iff.1 hinf with h1 | hinf
        · exact not_prefix_head (by decide) h1
        rcases List.infix_cons_iff.1 hinf with h1 | hinf
        · exact not_prefix_head (by decide) h1
        rcases List.infix_cons_iff.1 hinf with h1 | hinf
        · exact not_prefix_head (by decide) h1
        rcases List.infix_cons_iff.1 hinf with h1 | hinf
        · exact not_prefix_head (by decide) h1
        have hsub : ¬ ['<', 'l', 'a', 't', '>'] <:+: (c :: rest).drop 3 :=
          fun hi => hs (hi.trans (List.drop_suffix 3 (c :: rest)).isInfix)
        have hlen : ((c :: rest).drop 3).length < n := by
          simp only [List.length_drop, List.length_cons]
          subst hn
          simp only [List.length_cons]
          have h3 : 3 ≤ rest.length + 1 := by
            have := hc.2.sublist.length_le
            simpa using this
          omega
        exact ih _ hlen _ hsub rfl hinf
      · rw [replaceL_neg _ _ c rest hc]
        intro hinf
        rcases List.infix_cons_iff.1 hinf with h1 | hinf
        · obtain ⟨he, ht⟩ := List.cons_prefix_iff.1 h1
          have h3 : ['l', 'a', 't', '>'] <+: rest :=
            prefix_of_replaceL _ '<' _ rest _ (by decide) ht
          exact hs (List.infix_cons_iff.2
            (Or.inl (List.cons_prefix_iff.2 ⟨he, h3⟩)))
        · have hsub : ¬ ['<', 'l', 'a', 't', '>'] <:+: rest :=
            fun hi => hs (List.infix_cons_iff.2 (Or.inr hi))
          have hlen : rest.length < n := by
            subst hn; simp
          exact ih _ hlen _ hsub rfl hinf

/-- applyAliases written out as the two successive substitutions. -/
theorem applyAliases_eq (s : List Char) :
    applyAliases s =
      replaceL ['<', 'o', '>'] ['<', 'o', 'b', 'l', '>']
        (replaceL ['<', 'l', 'a', 't', '>'] ['<', 'd', 'a', 't', '>'] s) := by
  rfl

/-- One pass of applyAliases reaches a fixed point. -/
theorem applyAliases_idem (s : List Char) :
    applyAliases (applyAliases s) = applyAliases s := by
  rw [applyAliases_eq (applyAliases s)]
  have h1 : ¬ ['<', 'l', 'a', 't', '>'] <:+: applyAliases s := by
    rw [applyAliases_eq]
    exact no_lat_after_o _ (no_lat_after_lat s)
  have h2 : ¬ ['<', 'o', '>'] <:+: applyAliases s := by
    rw [applyAliases_eq]
    exact no_o_after_o _
  rw [replaceL_no_occurrence _ _ _ h1, replaceL_no_occurrence _ _ _ h2]

/-- C7: alias normalization is idempotent — applying replace_aliases (with
the fixed tag_aliases table) twice to any list of reference strings yields
the same strings as applying it once. -/
theorem claim_C7_alias_idempotent (tagged : List (List Char)) :
    replace_aliases (replace_aliases tagged) = replace_aliases tagged := by
  rw [replace_aliases, replace_aliases, List.map_map]
  exact List.map_congr_left (fun s _ => applyAliases_idem s)

/-! Lemmas about splitSlash and the span scanner, for C2. -/

theorem splitSlash_cons_eq (c : Char) (rest p : List Char) (ps : List (List Char))
    (h : splitSlash rest = p :: ps) :
    splitSlash (c :: rest) = if c = '/' then [] :: p :: ps else (c :: p) :: ps := by
  rw [splitSlash, h]

theorem splitSlash_ne_nil (s : List Char) : splitSlash s ≠ [] := by
  induction s with
  | nil => simp [splitSlash]
  | cons c rest ih =>
    obtain ⟨p, ps, h⟩ := List.exists_cons_of_ne_nil ih
    rw [splitSlash_cons_eq c rest p ps h]
    by_cases hc : c = '/' <;> simp [hc]

theorem slash_mem_iff_splitSlash (s : List Char) :
    '/' ∈ s ↔ 2 ≤ (splitSlash s).length := by
  induction s with
  | nil => simp [splitSlash]
  | cons c rest ih =>
    obtain ⟨p, ps, h⟩ := List.exists_cons_of_ne_nil (splitSlash_ne_nil rest)
    rw [splitSlash_cons_eq c rest p ps h]
    rw [h] at ih
    by_cases hc : c = '/'
    · subst hc
      rw [if_pos rfl]
      simp only [List.mem_cons, true_or, true_iff, List.length_cons]
      omega
    · rw [if_neg hc]
      simp only [List.mem_cons, List.length_cons] at ih ⊢
      constructor
      · rintro (he | hm)
        · exact absurd he.symm hc
        · exact ih.1 hm
      · intro hl
        exact Or.inr (ih.2 hl)

theorem mkItem_out_variants (sp : List Char) :
    (mkItem sp).out_variants = (splitSlash sp).tail := by
  rw [mkItem]
  obtain ⟨p, ps, h⟩ := List.exists_cons_of_ne_nil (splitSlash_ne_nil sp)
  rw [h]
  rfl

theorem takeWhile_append_all {p : Char → Bool} (w t : List Char)
    (hw : ∀ c ∈ w, p c = true) :
    List.takeWhile p (w ++ t) = w ++ List.takeWhile p t := by
  induction w with
  | nil => simp
  | cons c w' ih =>
    have hc := hw c (List.mem_cons_self c w')
    simp only [List.cons_append, List.takeWhile_cons, hc, if_true]
    rw [ih (fun d hd => hw d (List.mem_cons_of_mem _ hd))]

theorem splitSlash_no_slash_append (w t : List Char) (hw : '/' ∉ w) :
    splitSlash (w ++ '/' :: t) = w :: splitSlash t := by
  induction w with
  | nil =>
    simp only [List.nil_append]
    obtain ⟨p, ps, h⟩ := List.exists_cons_of_ne_nil (splitSlash_ne_nil t)
    rw [splitSlash_cons_eq '/' t p ps h, if_pos rfl, h]
  | cons c w' ih =>
    have hc : ¬ c = '/' := fun e => hw (e ▸ List.mem_cons_self c w')
    have hw' : '/' ∉ w' := fun hm => hw (List.mem_cons_of_mem _ hm)
    simp only [List.cons_append]
    rw [splitSlash_cons_eq c (w' ++ '/' :: t) w' (splitSlash t) (ih hw'), if_neg hc]

theorem spansGo_fuel :
    ∀ fuel fuel' s, s.length ≤ fuel → s.length ≤ fuel' →
      spansGo fuel s = spansGo fuel' s := by
  intro fuel
  induction fuel with
  | zero =>
    intro fuel' s hs _
    have : s = [] := List.length_eq_zero.1 (Nat.le_zero.1 hs)
    subst this
    cases fuel' <;> rfl
  | succ n ih =>
    intro fuel' s hs hs'
    cases s with
    | nil => cases fuel' <;> rfl
    | cons c rest =>
      cases fuel' with
      | zero =>
        simp only [List.length_cons] at hs'
        omega
      | succ m =>
        simp only [List.length_cons] at hs hs'
        simp only [spansGo]
        have hrest : rest.length ≤ n := by omega
        have hrest' : rest.length ≤ m := by omega
        have htail : ((rest.drop (rest.takeWhile notCaretDollar).length).tail).length ≤ n := by
          simp only [List.length_tail, List.length_drop]
          omega
        have htail' : ((rest.drop (rest.takeWhile notCaretDollar).length).tail).length ≤ m := by
          simp only [List.length_tail, List.length_drop]
          omega
        rw [ih m rest hrest hrest', ih m _ htail htail']

theorem findSpans_nil : findSpans [] = [] := rfl

theorem findSpans_cons_pos (rest after : List Char)
    (h1 : rest.takeWhile notCaretDollar ≠ [])
    (h2 : rest.drop (rest.takeWhile notCaretDollar).length = '$' :: after) :
    findSpans ('^' :: rest) = rest.takeWhile notCaretDollar :: findSpans after := by
  show spansGo ('^' :: rest).length ('^' :: rest) = _
  simp only [List.length_cons, spansGo]
  simp only [if_pos rfl, if_neg h1, h2, List.head?_cons, List.tail_cons]
  simp only [if_true]
  congr 1
  have hlen : after.length ≤ rest.length := by
    have := congrArg List.length h2
    simp only [List.length_drop, List.length_cons] at this
    omega
  exact spansGo_fuel rest.length after.length after hlen le_rfl

/-- C2 counterexample: on the input `^cat$` the parser produces one
ParsedItem whose out_variants list is empty, so "every AnalyzedToken has a
non-empty variants list" fails as stated. -/
theorem claim_C2_counterexample :
    parse_apertium ['^', 'c', 'a', 't', '$'] =
      [⟨['c', 'a', 't'], []⟩] := by
  decide

/-- C2 (amended): every AnalyzedToken produced by the Apertium-format
parser comes from a matched span, and its variants list is non-empty
exactly when that span contains the '/' separator (a span without '/',
which the analyzer convention never emits, yields an empty list); an
unrecognized input, rendered by the analyzer as `^w/*$`, yields exactly one
variant, the unknown-marker string `*`. -/
theorem claim_C2_parser_variants :
    (∀ stdout it, it ∈ parse_apertium stdout →
       ∃ sp ∈ findSpans stdout, it = mkItem sp ∧ (it.out_variants ≠ [] ↔ '/' ∈ sp))
    ∧ (∀ w : List Char, w ≠ [] → '^' ∉ w → '$' ∉ w → '/' ∉ w →
       parse_apertium ('^' :: (w ++ ['/', '*', '$'])) = [⟨w, [['*']]⟩]) := by
  constructor
  · intro stdout it hit
    rw [parse_apertium] at hit
    obtain ⟨sp, hsp, hmk⟩ := List.mem_map.1 hit
    subst hmk
    refine ⟨sp, hsp, rfl, ?_⟩
    rw [mkItem_out_variants, slash_mem_iff_splitSlash]
    obtain ⟨p, ps, h⟩ := List.exists_cons_of_ne_nil (splitSlash_ne_nil sp)
    rw [h]
    · simp only [List.tail_cons, List.length_cons]
      cases ps with
      | nil => simp
      | cons q qs =>
        simp only [List.length_cons]
        constructor
        · intro _
          omega
        · intro _
          simp
  · intro w hne hcaret hdollar hslash
    have hall : ∀ c ∈ w, notCaretDollar c = true := by
      intro c hc
      simp only [notCaretDollar, Bool.and_eq_true, bne_iff_ne, ne_eq]
      exact ⟨fun e => hcaret (e ▸ hc), fun e => hdollar (e ▸ hc)⟩
    have htw : List.takeWhile notCaretDollar (w ++ ['/', '*', '$']) = w ++ ['/', '*'] := by
      rw [takeWhile_append_all _ _ hall]
      rfl
    have hdrop : (w ++ ['/', '*', '$']).drop
        (List.takeWhile notCaretDollar (w ++ ['/', '*', '$'])).length = '$' :: [] := by
      rw [htw]
      have hsplit : w ++ ['/', '*', '$'] = (w ++ ['/', '*']) ++ ['$'] := by simp
      rw [hsplit, List.drop_left]
    rw [parse_apertium, findSpans_cons_pos _ [] (by rw [htw]; simp) hdrop, htw,
        findSpans_nil]
    have hmk : mkItem (w ++ ['/', '*']) = ⟨w, [['*']]⟩ := by
      rw [mkItem]
      have : w ++ ['/', '*'] = w ++ '/' :: ['*'] := rfl
      rw [this, splitSlash_no_slash_append w ['*'] hslash]
      rfl
    rw [List.map_cons, List.map_nil, hmk]

/-- Witness for C2: the amended theorem applied to the concrete
unrecognized output `^cat/*$`. -/
theorem claim_C2_witness :
    parse_apertium ('^' :: (['c', 'a', 't'] ++ ['/', '*', '$'])) =
      [⟨['c', 'a', 't'], [['*']]⟩] :=
  claim_C2_parser_variants.2 ['c', 'a', 't'] (by decide) (by decide) (by decide)
    (by decide)

/-! Lemmas about the stem scanner, for C9. -/

theorem drop_length_takeWhile (p : Char → Bool) :
    ∀ l : List Char, l.drop (l.takeWhile p).length = l.dropWhile p := by
  intro l
  induction l with
  | nil => rfl
  | cons c rest ih =>
    by_cases hc : p c
    · simp [List.takeWhile_cons, List.dropWhile_cons, hc, ih]
    · simp [List.takeWhile_cons, List.dropWhile_cons, hc]

theorem takeWhile_drop_decomp (p : Char → Bool) (l : List Char) :
    l = l.takeWhile p ++ l.drop (l.takeWhile p).length := by
  rw [drop_length_takeWhile]
  exact (List.takeWhile_append_dropWhile p l).symm

/-- A successful match of the stem regex exhibits a non-delimiter character
immediately followed by '<' somewhere in the string. -/
theorem stemTry_some_adjacent (s r : List Char) (h : stemTry s = some r) :
    ∃ c ∈ s, nonAngle c = true ∧ [c, '<'] <:+: s := by
  simp only [stemTry] at h
  generalize hs0 : (if s.head? = some '>' then s.tail else s) = s' at h
  have hsub : s' <:+ s := by
    rw [← hs0]
    by_cases hh : s.head? = some '>'
    · rw [if_pos hh]
      exact List.tail_suffix s
    · rw [if_neg hh]
  by_cases hr : s'.takeWhile nonAngle = []
  · rw [if_pos hr] at h
    simp at h
  · rw [if_neg hr] at h
    by_cases hd : (s'.drop (s'.takeWhile nonAngle).length).head? = some '<'
    · obtain ⟨rest2, hrest⟩ : ∃ rest2,
          s'.drop (s'.takeWhile nonAngle).length = '<' :: rest2 := by
        cases hdd : s'.drop (s'.takeWhile nonAngle).length with
        | nil => rw [hdd] at hd; simp at hd
        | cons d t =>
          rw [hdd] at hd
          simp only [List.head?_cons, Option.some.injEq] at hd
          exact ⟨t, by rw [hd]⟩
      have hdecomp : s' = s'.takeWhile nonAngle ++ '<' :: rest2 := by
        conv_lhs => rw [takeWhile_drop_decomp nonAngle s']
        rw [hrest]
      have hlast := List.dropLast_append_getLast hr
      have hmemTW : (s'.takeWhile nonAngle).getLast hr ∈ s'.takeWhile nonAngle :=
        List.getLast_mem hr
      have hform : s' = (s'.takeWhile nonAngle).dropLast ++
          ([(s'.takeWhile nonAngle).getLast hr, '<'] ++ rest2) := by
        conv_lhs => rw [hdecomp, ← hlast]
        simp
      have hin : [(s'.takeWhile nonAngle).getLast hr, '<'] <:+: s' := by
        refine ⟨(s'.takeWhile nonAngle).dropLast, rest2, ?_⟩
        conv_rhs => rw [hform]
        simp [List.append_assoc]
      have hins : [(s'.takeWhile nonAngle).getLast hr, '<'] <:+: s :=
        hin.trans hsub.isInfix
      exact ⟨(s'.takeWhile nonAngle).getLast hr,
        hins.subset (List.mem_cons_self _ _),
        List.mem_takeWhile_imp hmemTW, hins⟩
    · rw [if_neg hd] at h
      simp at h

theorem findStem_some_adjacent :
    ∀ (s r : List Char), findStem s = some r →
      ∃ c ∈ s, nonAngle c = true ∧ [c, '<'] <:+: s := by
  intro s
  induction s with
  | nil => intro r h; simp [findStem] at h
  | cons c0 rest ih =>
    intro r h
    rw [findStem] at h
    cases hst : stemTry (c0 :: rest) with
    | some r' =>
      exact stemTry_some_adjacent (c0 :: rest) r' hst
    | none =>
      rw [hst] at h
      obtain ⟨c, hc, hna, hin⟩ := ih r h
      exact ⟨c, List.mem_cons_of_mem _ hc, hna, List.infix_cons hin⟩

/-- C9: stem extraction is partial at the public interface.  On any analysis
string that has no '<' immediately preceded by a non-delimiter character
(for example a bare tag-less wordform) get_stem raises IndexError rather
than returning an empty stem, and this exception is reachable from compare
(through stem_match on a recognized item) and from make_latin. -/
theorem claim_C9_get_stem_partial :
    (∀ s : List Char, (¬ ∃ c ∈ s, nonAngle c = true ∧ [c, '<'] <:+: s) →
       get_stem s = .error .indexError)
    ∧ compare [chars "car"] [⟨chars "car", [chars "car"]⟩] accuracy_funcs
        = .error .indexError
    ∧ make_latin (fun _ => []) [⟨chars "w", [chars "bare"]⟩]
        = .error .indexError := by
  refine ⟨?_, by decide, by decide⟩
  intro s hno
  rw [get_stem]
  cases hf : findStem s with
  | none => rfl
  | some r => exact absurd (findStem_some_adjacent s r hf) hno

/-- Witness for C9: the bare wordform `car` makes get_stem raise. -/
theorem claim_C9_witness :
    get_stem ['c', 'a', 'r'] = .error .indexError :=
  claim_C9_get_stem_partial.1 ['c', 'a', 'r'] (by decide)

/-! Shape lemmas: every metric of the registry either raises IndexError or
returns a boolean — in particular none raises the length-mismatch
RuntimeError, which is reserved to compare itself (C3). -/

theorem get_stem_shape (a : List Char) :
    get_stem a = .error .indexError ∨ ∃ r, get_stem a = .ok r := by
  rw [get_stem]
  cases findStem a <;> simp

theorem getPosTag_shape (a : List Char) :
    getPosTag a = .error .indexError ∨ ∃ r, getPosTag a = .ok r := by
  rw [getPosTag]
  cases findPos a <;> simp

theorem match_stem_shape (a b : List Char) :
    match_stem a b = .error .indexError ∨ ∃ v, match_stem a b = .ok v := by
  rw [match_stem]
  rcases get_stem_shape a with h | ⟨r1, h⟩ <;> rw [h]
  · exact Or.inl rfl
  · rcases get_stem_shape b with h2 | ⟨r2, h2⟩ <;> rw [h2]
    · exact Or.inl rfl
    · exact Or.inr ⟨_, rfl⟩

theorem match_pos_shape (a b : List Char) :
    match_pos a b = .error .indexError ∨ ∃ v, match_pos a b = .ok v := by
  rw [match_pos]
  rcases getPosTag_shape a with h | ⟨r1, h⟩ <;> rw [h]
  · exact Or.inl rfl
  · rcases getPosTag_shape b with h2 | ⟨r2, h2⟩ <;> rw [h2]
    · exact Or.inl rfl
    · exact Or.inr ⟨_, rfl⟩

theorem match_stem_and_pos_shape (a b : List Char) :
    match_stem_and_pos a b = .error .indexError ∨
      ∃ v, match_stem_and_pos a b = .ok v := by
  rw [match_stem_and_pos]
  rcases match_stem_shape a b with h | ⟨v, h⟩ <;> rw [h]
  · exact Or.inl rfl
  · cases v
    · exact Or.inr ⟨false, rfl⟩
    · exact match_pos_shape a b

theorem match_unordered_shape (a b : List Char) :
    match_unordered a b = .error .indexError ∨
      ∃ v, match_unordered a b = .ok v := by
  rw [match_unordered]
  rcases match_stem_shape a b with h | ⟨v, h⟩ <;> rw [h]
  · exact Or.inl rfl
  · exact Or.inr ⟨_, rfl⟩

theorem accuracy_funcs_shape :
    ∀ p ∈ accuracy_funcs, ∀ a b,
      p.2 a b = .error .indexError ∨ ∃ v, p.2 a b = .ok v := by
  intro p hp a b
  simp only [accuracy_funcs, List.mem_cons, List.not_mem_nil, or_false] at hp
  rcases hp with h | h | h | h | h <;> subst h
  · exact Or.inr ⟨_, rfl⟩
  · exact match_stem_shape a b
  · exact match_pos_shape a b
  · exact match_stem_and_pos_shape a b
  · exact match_unordered_shape a b

theorem firstMatch_shape (f : Metric) (ref : List Char)
    (hf : ∀ a b, f a b = .error .indexError ∨ ∃ v, f a b = .ok v) :
    ∀ vs, firstMatch f ref vs = .error .indexError ∨
      ∃ v, firstMatch f ref vs = .ok v := by
  intro vs
  induction vs with
  | nil => exact Or.inr ⟨false, rfl⟩
  | cons v vs' ih =>
    rw [firstMatch]
    rcases hf ref v with h | ⟨b, h⟩ <;> rw [h]
    · exact Or.inl rfl
    · cases b
      · exact ih
      · exact Or.inr ⟨true, rfl⟩

theorem runMetrics_shape (ref : List Char) (pred : ParsedItem) :
    ∀ (funcs : List (String × Metric)) (flag : Bool),
      (∀ p ∈ funcs, ∀ a b, p.2 a b = .error .indexError ∨ ∃ v, p.2 a b = .ok v) →
      runMetrics ref pred funcs flag = .error .indexError ∨
        ∃ v, runMetrics ref pred funcs flag = .ok v := by
  intro funcs
  induction funcs with
  | nil => intro flag _; exact Or.inr ⟨_, rfl⟩
  | cons p fs ih =>
    intro flag hall
    obtain ⟨name, f⟩ := p
    rw [runMetrics]
    rcases firstMatch_shape f ref
        (hall (name, f) (List.mem_cons_self _ _)) pred.out_variants with h | ⟨m, h⟩
    · simp [h]
    · simp only [h]
      rcases ih (flag || m) (fun q hq => hall q (List.mem_cons_of_mem _ hq)) with
        h2 | ⟨v2, h2⟩
      · simp [h2]
      · obtain ⟨rs, ds2⟩ := v2
        simp only [h2]
        exact Or.inr ⟨_, rfl⟩

theorem compareLoop_shape (funcs : List (String × Metric))
    (hall : ∀ p ∈ funcs, ∀ a b,
      p.2 a b = .error .indexError ∨ ∃ v, p.2 a b = .ok v) :
    ∀ pairs, compareLoop funcs pairs = .error .indexError ∨
      ∃ v, compareLoop funcs pairs = .ok v := by
  intro pairs
  induction pairs with
  | nil => exact Or.inr ⟨_, rfl⟩
  | cons pr rest ih =>
    obtain ⟨ref, pred⟩ := pr
    cases hv : pred.out_variants with
    | nil =>
      simp [compareLoop, hv]
    | cons v0 vs =>
      simp only [compareLoop, hv]
      by_cases hstar : '*' ∈ v0
      · rw [if_pos hstar]
        rcases ih with h | ⟨v, h⟩
        · simp [h]
        · obtain ⟨rec, counts, ds⟩ := v
          simp only [h]
          exact Or.inr ⟨_, rfl⟩
      · rw [if_neg hstar]
        rcases runMetrics_shape ref pred funcs false hall with h | ⟨v1, h⟩
        · simp [h]
        · obtain ⟨results, ds1⟩ := v1
          simp only [h]
          rcases ih with h2 | ⟨v2, h2⟩
          · simp [h2]
          · obtain ⟨rec, counts, ds2⟩ := v2
            simp only [h2]
            exact Or.inr ⟨_, rfl⟩

/-- C3: compare raises the length-mismatch RuntimeError exactly when the
reference and predicted sequences have different lengths; with equal
lengths it never aborts for that reason, and a successful run reports
total equal to both lengths (nothing is truncated or padded). -/
theorem claim_C3_length_check :
    ∀ reference predicted,
      (compare reference predicted accuracy_funcs = .error .lengthMismatch
        ↔ reference.length ≠ predicted.length)
      ∧ (∀ r, compare reference predicted accuracy_funcs = .ok r →
          r.total = reference.length ∧ r.total = predicted.length) := by
  intro reference predicted
  by_cases hl : reference.length ≠ predicted.length
  · constructor
    · exact ⟨fun _ => hl, fun _ => by rw [compare, if_pos hl]⟩
    · intro r hr
      rw [compare, if_pos hl] at hr
      simp at hr
  · push_neg at hl
    have hl' : ¬ reference.length ≠ predicted.length := by omega
    constructor
    · rw [compare, if_neg hl']
      rcases compareLoop_shape accuracy_funcs accuracy_funcs_shape
          (reference.zip predicted) with h | ⟨v, h⟩ <;> rw [h]
      · simp
        omega
      · obtain ⟨rec, counts, ds⟩ := v
        simp
        omega
    · intro r hr
      rw [compare, if_neg hl'] at hr
      rcases compareLoop_shape accuracy_funcs accuracy_funcs_shape
          (reference.zip predicted) with h | ⟨v, h⟩ <;> rw [h] at hr
      · simp at hr
      · obtain ⟨rec, counts, ds⟩ := v
        simp only [Except.ok.injEq] at hr
        subst hr
        exact ⟨rfl, hl⟩

/-- Witness for C3: calling compare on sequences of lengths 1 and 0 raises
the length-mismatch error. -/
theorem claim_C3_witness :
    compare [chars "a"] [] accuracy_funcs = .error .lengthMismatch :=
  (claim_C3_length_check [chars "a"] []).1.mpr (by decide)

/-! Counting lemmas about compareLoop, for C4 and C5. -/

theorem mergeCounts_le :
    ∀ (rs : List (String × Bool)) (cs : List (String × Nat × Nat)),
      (∀ e ∈ cs, e.2.1 ≤ e.2.2) →
      ∀ e ∈ mergeCounts rs cs, e.2.1 ≤ e.2.2 := by
  intro rs
  induction rs with
  | nil =>
    intro cs _ e he
    simp [mergeCounts] at he
  | cons r rs' ih =>
    intro cs h e he
    cases cs with
    | nil =>
      obtain ⟨n, m⟩ := r
      simp [mergeCounts] at he
    | cons c cs' =>
      obtain ⟨n, m⟩ := r
      obtain ⟨n', cc, rr⟩ := c
      rw [mergeCounts] at he
      rcases List.mem_cons.1 he with he1 | he2
      · subst he1
        have hcle : cc ≤ rr := h (n', cc, rr) (List.mem_cons_self _ _)
        cases m <;> simp <;> omega
      · exact ih cs' (fun x hx => h x (List.mem_cons_of_mem _ hx)) e he2

theorem compareLoop_counts_le (funcs : List (String × Metric)) :
    ∀ pairs rec counts ds,
      compareLoop funcs pairs = .ok (rec, counts, ds) →
      ∀ e ∈ counts, e.2.1 ≤ e.2.2 := by
  intro pairs
  induction pairs with
  | nil =>
    intro rec counts ds h e he
    simp only [compareLoop, Except.ok.injEq, Prod.mk.injEq] at h
    obtain ⟨-, h2, -⟩ := h
    subst h2
    obtain ⟨p, -, hp⟩ := List.mem_map.1 he
    rw [← hp]
  | cons pr rest ih =>
    intro rec counts ds h e he
    obtain ⟨ref, pred⟩ := pr
    cases hv : pred.out_variants with
    | nil => simp [compareLoop, hv] at h
    | cons v0 vs =>
      simp only [compareLoop, hv] at h
      by_cases hstar : '*' ∈ v0
      · rw [if_pos hstar] at h
        cases hrec : compareLoop funcs rest with
        | error e2 => rw [hrec] at h; simp at h
        | ok t =>
          obtain ⟨rec', counts', ds'⟩ := t
          rw [hrec] at h
          simp only [Except.ok.injEq, Prod.mk.injEq] at h
          obtain ⟨-, h2, -⟩ := h
          subst h2
          exact ih _ _ _ hrec e he
      · rw [if_neg hstar] at h
        cases hrm : runMetrics ref pred funcs false with
        | error e2 => rw [hrm] at h; simp at h
        | ok t1 =>
          obtain ⟨results, ds1⟩ := t1
          rw [hrm] at h
          cases hrec : compareLoop funcs rest with
          | error e2 => rw [hrec] at h; simp at h
          | ok t =>
            obtain ⟨rec', counts', ds2⟩ := t
            rw [hrec] at h
            simp only [Except.ok.injEq, Prod.mk.injEq] at h
            obtain ⟨-, h2, -⟩ := h
            subst h2
            exact mergeCounts_le results counts' (ih rec' counts' ds2 hrec) e he

theorem compareLoop_count (funcs : List (String × Metric)) :
    ∀ pairs rec counts ds,
      compareLoop funcs pairs = .ok (rec, counts, ds) →
      rec ≤ pairs.length ∧
      (rec = pairs.length ↔ ∀ p ∈ pairs, '*' ∉ (p.2.out_variants.getD 0 [])) := by
  intro pairs
  induction pairs with
  | nil =>
    intro rec counts ds h
    simp only [compareLoop, Except.ok.injEq, Prod.mk.injEq] at h
    obtain ⟨h1, -, -⟩ := h
    subst h1
    simp
  | cons pr rest ih =>
    intro rec counts ds h
    obtain ⟨ref, pred⟩ := pr
    cases hv : pred.out_variants with
    | nil => simp [compareLoop, hv] at h
    | cons v0 vs =>
      simp only [compareLoop, hv] at h
      by_cases hstar : '*' ∈ v0
      · rw [if_pos hstar] at h
        cases hrec : compareLoop funcs rest with
        | error e2 => rw [hrec] at h; simp at h
        | ok t =>
          obtain ⟨rec', counts', ds'⟩ := t
          rw [hrec] at h
          simp only [Except.ok.injEq, Prod.mk.injEq] at h
          obtain ⟨h1, -, -⟩ := h
          subst h1
          obtain ⟨hle, -⟩ := ih rec' counts' ds' hrec
          constructor
          · simp only [List.length_cons]
            omega
          · constructor
            · intro heq
              simp only [List.length_cons] at heq
              omega
            · intro hall
              have := hall (ref, pred) (List.mem_cons_self _ _)
              rw [hv] at this
              simp only [List.getD_cons_zero] at this
              exact absurd hstar this
      · rw [if_neg hstar] at h
        cases hrm : runMetrics ref pred funcs false with
        | error e2 => rw [hrm] at h; simp at h
        | ok t1 =>
          obtain ⟨results, ds1⟩ := t1
          rw [hrm] at h
          cases hrec : compareLoop funcs rest with
          | error e2 => rw [hrec] at h; simp at h
          | ok t =>
            obtain ⟨rec', counts', ds2⟩ := t
            rw [hrec] at h
            simp only [Except.ok.injEq, Prod.mk.injEq] at h
            obtain ⟨h1, -, -⟩ := h
            subst h1
            obtain ⟨hle, hiff⟩ := ih rec' counts' ds2 hrec
            constructor
            · simp only [List.length_cons]
              omega
            · rw [List.forall_mem_cons]
              constructor
              · intro heq
                refine ⟨?_, hiff.1 (by simp only [List.length_cons] at heq; omega)⟩
                rw [hv]
                simp only [List.getD_cons_zero]
                exact hstar
              · rintro ⟨-, hall⟩
                have := hiff.2 hall
                simp only [List.length_cons]
                omega

theorem mkAcc_bounds (c r : Nat) (h : c ≤ r) :
    (mkAcc c r).correct ≤ (mkAcc c r).recognized ∧
    0 ≤ (mkAcc c r).acc ∧ (mkAcc c r).acc ≤ 1 ∧
    ((mkAcc c r).recognized = 0 → (mkAcc c r).acc = 0) := by
  rw [mkAcc]
  refine ⟨h, ?_, ?_, ?_⟩
  · by_cases hr : r = 0
    · rw [if_pos hr]
    · rw [if_neg hr]
      have hrp : (0 : ℚ) < (r : ℚ) := by
        exact_mod_cast Nat.pos_of_ne_zero hr
      exact div_nonneg (by exact_mod_cast Nat.zero_le c) (le_of_lt hrp)
  · by_cases hr : r = 0
    · rw [if_pos hr]
      exact zero_le_one
    · rw [if_neg hr]
      have hrp : (0 : ℚ) < (r : ℚ) := by
        exact_mod_cast Nat.pos_of_ne_zero hr
      rw [div_le_one hrp]
      exact_mod_cast h
  · intro h0
    rw [if_pos h0]

/-- C4: in every successful RunResult, each metric satisfies
correct ≤ recognized, the accuracy lies in [0, 1], and it is 0 whenever
that metric's recognized count is 0 (no division by zero). -/
theorem claim_C4_accuracy_bounds :
    ∀ reference predicted funcs r,
      compare reference predicted funcs = .ok r →
      ∀ p ∈ r.accuracy,
        p.2.correct ≤ p.2.recognized ∧ 0 ≤ p.2.acc ∧ p.2.acc ≤ 1 ∧
        (p.2.recognized = 0 → p.2.acc = 0) := by
  intro reference predicted funcs r h p hp
  rw [compare] at h
  by_cases hl : reference.length ≠ predicted.length
  · rw [if_pos hl] at h
    simp at h
  · rw [if_neg hl] at h
    cases hloop : compareLoop funcs (reference.zip predicted) with
    | error e => rw [hloop] at h; simp at h
    | ok t =>
      obtain ⟨rec, counts, ds⟩ := t
      rw [hloop] at h
      simp only [Except.ok.injEq] at h
      subst h
      simp only at hp
      obtain ⟨c, hc, hcp⟩ := List.mem_map.1 hp
      have hle := compareLoop_counts_le funcs (reference.zip predicted)
        rec counts ds hloop c hc
      have := mkAcc_bounds c.2.1 c.2.2 hle
      rw [← hcp]
      exact this

/-- Witness for C4: compare on one correctly analyzed item with the
exact-match metric yields the entry (1, 1, accuracy 1), which satisfies the
bounds. -/
theorem claim_C4_witness :
    (mkAcc 0 0).correct ≤ (mkAcc 0 0).recognized ∧
    0 ≤ (mkAcc 0 0).acc ∧ (mkAcc 0 0).acc ≤ 1 ∧
    ((mkAcc 0 0).recognized = 0 → (mkAcc 0 0).acc = 0) :=
  claim_C4_accuracy_bounds [chars "x"] [⟨chars "x", [chars "*"]⟩]
    [("exact_match", match_exact)]
    ⟨1, 0, [("exact_match", mkAcc 0 0)],
     [⟨"unknown", chars "x", chars "x", chars "*", .UNKNOWN⟩]⟩
    (by decide) ("exact_match", mkAcc 0 0) (by decide)

/-- C5: a successful compare on sequences of length N reports total = N and
recognized ≤ total, with equality exactly when no predicted item's first
variant carries the unknown marker. -/
theorem claim_C5_total_recognized :
    ∀ reference predicted funcs r,
      compare reference predicted funcs = .ok r →
      r.total = reference.length ∧ r.recognized ≤ r.total ∧
      (r.recognized = r.total ↔
        ∀ it ∈ predicted, '*' ∉ it.out_variants.getD 0 []) := by
  intro reference predicted funcs r h
  rw [compare] at h
  by_cases hl : reference.length ≠ predicted.length
  · rw [if_pos hl] at h
    simp at h
  · rw [if_neg hl] at h
    push_neg at hl
    cases hloop : compareLoop funcs (reference.zip predicted) with
    | error e => rw [hloop] at h; simp at h
    | ok t =>
      obtain ⟨rec, counts, ds⟩ := t
      rw [hloop] at h
      simp only [Except.ok.injEq] at h
      subst h
      obtain ⟨hle, hiff⟩ := compareLoop_count funcs (reference.zip predicted)
        rec counts ds hloop
      have hzlen : (reference.zip predicted).length = reference.length := by
        rw [List.length_zip, hl, min_self]
      rw [hzlen] at hle hiff
      have htrans : (∀ p ∈ reference.zip predicted,
          '*' ∉ (p.2.out_variants.getD 0 [])) ↔
          (∀ it ∈ predicted, '*' ∉ it.out_variants.getD 0 []) := by
        constructor
        · intro hall it hit
          have hmem : it ∈ (reference.zip predicted).map Prod.snd := by
            rw [List.map_snd_zip reference predicted (le_of_eq hl.symm)]
            exact hit
          obtain ⟨q, hq, hqe⟩ := List.mem_map.1 hmem
          exact hqe ▸ hall q hq
        · intro hall q hq
          obtain ⟨a, b⟩ := q
          exact hall b (List.of_mem_zip hq).2
      exact ⟨rfl, hle, hiff.trans htrans⟩

/-- Witness for C5: compare on one recognized item with no metrics yields
total 1, recognized 1, and the characterization holds. -/
theorem claim_C5_witness :
    (⟨1, 1, [], []⟩ : RunResult).total = [chars "a"].length ∧
    (⟨1, 1, [], []⟩ : RunResult).recognized ≤ (⟨1, 1, [], []⟩ : RunResult).total ∧
    ((⟨1, 1, [], []⟩ : RunResult).recognized = (⟨1, 1, [], []⟩ : RunResult).total ↔
      ∀ it ∈ [(⟨chars "a", [chars "a"]⟩ : ParsedItem)],
        '*' ∉ it.out_variants.getD 0 []) :=
  claim_C5_total_recognized [chars "a"] [⟨chars "a", [chars "a"]⟩] [] ⟨1, 1, [], []⟩
    (by decide)

/-- C10: an item is classified unrecognized exactly when '*' occurs
anywhere as a substring of its first variant: such an item is excluded from
the global recognized count and from every metric's scoring (it only
produces the UNKNOWN record), and make_latin leaves it untouched and sends
an empty batch to the transliterator when no other item contributes; an
item whose first variant lacks '*' is counted recognized. -/
theorem claim_C10_unknown_marker :
    ∀ (input v0 : List Char) (rest : List (List Char)),
      ('*' ∈ v0 →
        (∀ (ref : List Char) (funcs : List (String × Metric)),
          compare [ref] [⟨input, v0 :: rest⟩] funcs =
            .ok ⟨1, 0, funcs.map (fun p => (p.1, mkAcc 0 0)),
                 [⟨"unknown", input, ref, joinSlash (v0 :: rest), .UNKNOWN⟩]⟩)
        ∧ (∀ lookup, make_latin lookup [⟨input, v0 :: rest⟩] =
            .ok ([⟨input, v0 :: rest⟩], [[]])))
      ∧ ('*' ∉ v0 →
        ∀ (ref : List Char) (funcs : List (String × Metric)) r,
          compare [ref] [⟨input, v0 :: rest⟩] funcs = .ok r →
          r.recognized = 1) := by
  intro input v0 rest
  constructor
  · intro hstar
    constructor
    · intro ref funcs
      rw [compare, if_neg (by simp)]
      have hz : ([ref].zip [(⟨input, v0 :: rest⟩ : ParsedItem)]) =
          [(ref, ⟨input, v0 :: rest⟩)] := rfl
      rw [hz]
      simp only [compareLoop]
      rw [if_pos hstar]
      simp only [List.map_map]
      rfl
    · intro lookup
      have hg : gatherStems [(⟨input, v0 :: rest⟩ : ParsedItem)] [] = .ok [] := by
        simp only [gatherStems]
        rw [if_pos hstar]
      have hr : ∀ d, rewriteItems d [(⟨input, v0 :: rest⟩ : ParsedItem)] =
          .ok [⟨input, v0 :: rest⟩] := by
        intro d
        simp only [rewriteItems]
        rw [if_pos hstar]
      rw [make_latin, hg]
      simp [hr]
  · intro hstar ref funcs r h
    rw [compare, if_neg (by simp)] at h
    have hz : ([ref].zip [(⟨input, v0 :: rest⟩ : ParsedItem)]) =
        [(ref, ⟨input, v0 :: rest⟩)] := rfl
    rw [hz] at h
    simp only [compareLoop] at h
    rw [if_neg hstar] at h
    cases hrm : runMetrics ref ⟨input, v0 :: rest⟩ funcs false with
    | error e => rw [hrm] at h; simp at h
    | ok t1 =>
      obtain ⟨results, ds1⟩ := t1
      rw [hrm] at h
      simp only [Except.ok.injEq] at h
      subst h
      rfl

/-- Witness for C10: an embedded '*' inside an otherwise well-formed first
variant excludes the item from scoring and from transliteration. -/
theorem claim_C10_witness :
    compare [chars "car<n>"] [⟨chars "car", [chars "a*b<n>"]⟩] accuracy_funcs =
      .ok ⟨1, 0, accuracy_funcs.map (fun p => (p.1, mkAcc 0 0)),
           [⟨"unknown", chars "car", chars "car<n>",
             joinSlash [chars "a*b<n>"], .UNKNOWN⟩]⟩ ∧
    make_latin (fun _ => []) [⟨chars "car", [chars "a*b<n>"]⟩] =
      .ok ([⟨chars "car", [chars "a*b<n>"]⟩], [[]]) :=
  ⟨((claim_C10_unknown_marker (chars "car") (chars "a*b<n>") []).1
      (by decide)).1 (chars "car<n>") accuracy_funcs,
   ((claim_C10_unknown_marker (chars "car") (chars "a*b<n>") []).1
      (by decide)).2 (fun _ => [])⟩

/-- C1 (behavior of the code at the failing input): on reference
`car<n>` and single predicted variant `car<v>`, stem_match is the only
matching metric; the code emits only two detail records — FAIL for
exact_match and CORRECT for stem_match — and none at all for pos_match,
stem_and_pos_match and unordered_tags_match, although their counts record
them as failures, because `is_correct` is initialized once per item and
never reset between metrics. -/
theorem claim_C1_details_eval :
    (compare [chars "car<n>"] [⟨chars "car", [chars "car<v>"]⟩]
        accuracy_funcs).map RunResult.details =
      .ok [⟨"exact_match", chars "car", chars "car<n>", chars "car<v>", .FAIL⟩,
           ⟨"stem_match", chars "car", chars "car<n>", chars "car<v>", .CORRECT⟩] ∧
    (compare [chars "car<n>"] [⟨chars "car", [chars "car<v>"]⟩]
        accuracy_funcs).map
        (fun r => r.accuracy.map (fun p => (p.1, p.2.correct, p.2.recognized))) =
      .ok [("exact_match", 0, 1), ("stem_match", 1, 1), ("pos_match", 0, 1),
           ("stem_and_pos_match", 0, 1), ("unordered_tags_match", 0, 1)] :=
  ⟨by decide, by decide⟩

/-! Lemmas about the stem-gathering pass of make_latin, for C6 and C8. -/

theorem gatherVars_spec :
    ∀ (vs : List (List Char)) (acc acc2 : List (List Char)),
      gatherVars vs acc = .ok acc2 →
      (∀ s, s ∈ acc2 ↔ s ∈ acc ∨ ∃ v ∈ vs, get_stem v = .ok s) ∧
      (acc.Nodup → acc2.Nodup) := by
  intro vs
  induction vs with
  | nil =>
    intro acc acc2 h
    simp only [gatherVars, Except.ok.injEq] at h
    subst h
    simp
  | cons v vs' ih =>
    intro acc acc2 h
    rw [gatherVars] at h
    cases hst : get_stem v with
    | error e => rw [hst] at h; simp at h
    | ok st =>
      rw [hst] at h
      obtain ⟨hmem, hnd⟩ := ih _ _ h
      have haccmem : ∀ s, s ∈ (if st ∈ acc then acc else acc ++ [st]) ↔
          s ∈ acc ∨ s = st := by
        intro s
        by_cases hin : st ∈ acc
        · rw [if_pos hin]
          constructor
          · exact Or.inl
          · rintro (hs | hs)
            · exact hs
            · exact hs ▸ hin
        · rw [if_neg hin]
          simp [List.mem_append]
      constructor
      · intro s
        rw [hmem s]
        constructor
        · rintro (hs | ⟨v', hv', hsv'⟩)
          · rcases (haccmem s).1 hs with hs2 | hs2
            · exact Or.inl hs2
            · exact Or.inr ⟨v, List.mem_cons_self _ _, by rw [hst, hs2]⟩
          · exact Or.inr ⟨v', List.mem_cons_of_mem _ hv', hsv'⟩
        · rintro (hs | ⟨v', hv', hsv'⟩)
          · exact Or.inl ((haccmem s).2 (Or.inl hs))
          · rcases List.mem_cons.1 hv' with he | he
            · subst he
              rw [hst] at hsv'
              simp only [Except.ok.injEq] at hsv'
              exact Or.inl ((haccmem s).2 (Or.inr hsv'.symm))
            · exact Or.inr ⟨v', he, hsv'⟩
      · intro hacc
        apply hnd
        by_cases hin : st ∈ acc
        · rw [if_pos hin]
          exact hacc
        · rw [if_neg hin]
          rw [List.nodup_append]
          exact ⟨hacc, List.nodup_singleton st,
            fun a ha hb => hin ((List.mem_singleton.1 hb) ▸ ha)⟩

theorem gatherStems_spec :
    ∀ (items : List ParsedItem) (acc acc2 : List (List Char)),
      gatherStems items acc = .ok acc2 →
      (∀ s, s ∈ acc2 ↔ s ∈ acc ∨ ∃ it ∈ items,
        '*' ∉ it.out_variants.getD 0 [] ∧
        ∃ v ∈ it.out_variants, get_stem v = .ok s) ∧
      (acc.Nodup → acc2.Nodup) := by
  intro items
  induction items with
  | nil =>
    intro acc acc2 h
    simp only [gatherStems, Except.ok.injEq] at h
    subst h
    simp
  | cons it rest ih =>
    intro acc acc2 h
    cases hv : it.out_variants with
    | nil => simp [gatherStems, hv] at h
    | cons v0 vs =>
      simp only [gatherStems, hv] at h
      by_cases hstar : '*' ∈ v0
      · rw [if_pos hstar] at h
        obtain ⟨hmem, hnd⟩ := ih _ _ h
        refine ⟨?_, hnd⟩
        intro s
        rw [hmem s]
        constructor
        · rintro (hs | ⟨it', hit', hp⟩)
          · exact Or.inl hs
          · exact Or.inr ⟨it', List.mem_cons_of_mem _ hit', hp⟩
        · rintro (hs | ⟨it', hit', hp⟩)
          · exact Or.inl hs
          · rcases List.mem_cons.1 hit' with he | he
            · subst he
              rw [hv] at hp
              simp only [List.getD_cons_zero] at hp
              exact absurd hstar hp.1
            · exact Or.inr ⟨it', he, hp⟩
      · rw [if_neg hstar] at h
        cases hgv : gatherVars (v0 :: vs) acc with
        | error e => rw [hgv] at h; simp at h
        | ok acc1 =>
          rw [hgv] at h
          obtain ⟨hmem1, hnd1⟩ := gatherVars_spec (v0 :: vs) acc acc1 hgv
          obtain ⟨hmem2, hnd2⟩ := ih acc1 acc2 h
          refine ⟨?_, fun ha => hnd2 (hnd1 ha)⟩
          intro s
          rw [hmem2 s]
          constructor
          · rintro (hs | ⟨it', hit', hp⟩)
            · rcases (hmem1 s).1 hs with h2 | ⟨v, hvv, hsv⟩
              · exact Or.inl h2
              · refine Or.inr ⟨it, List.mem_cons_self _ _, ?_, v, ?_, hsv⟩
                · rw [hv]
                  simpa using hstar
                · rw [hv]
                  exact hvv
            · exact Or.inr ⟨it', List.mem_cons_of_mem _ hit', hp⟩
          · rintro (hs | ⟨it', hit', hp⟩)
            · exact Or.inl ((hmem1 s).2 (Or.inl hs))
            · rcases List.mem_cons.1 hit' with he | he
              · subst he
                obtain ⟨-, v, hvv, hsv⟩ := hp
                rw [hv] at hvv
                exact Or.inl ((hmem1 s).2 (Or.inr ⟨v, hvv, hsv⟩))
              · exact Or.inr ⟨it', he, hp⟩

theorem rewriteItems_frame :
    ∀ (d : List (List Char × List (List Char))) (items res : List ParsedItem),
      rewriteItems d items = .ok res →
      List.Forall₂ (fun old new => '*' ∈ old.out_variants.getD 0 [] → new = old)
        items res := by
  intro d items
  induction items with
  | nil =>
    intro res h
    simp only [rewriteItems, Except.ok.injEq] at h
    subst h
    exact List.Forall₂.nil
  | cons it rest ih =>
    intro res h
    cases hv : it.out_variants with
    | nil => simp [rewriteItems, hv] at h
    | cons v0 vs =>
      simp only [rewriteItems, hv] at h
      by_cases hstar : '*' ∈ v0
      · rw [if_pos hstar] at h
        cases hrec : rewriteItems d rest with
        | error e => rw [hrec] at h; simp at h
        | ok r' =>
          rw [hrec] at h
          simp only [Except.ok.injEq] at h
          subst h
          exact List.Forall₂.cons (fun _ => rfl) (ih r' hrec)
      · rw [if_neg hstar] at h
        cases hrv : rewriteVars d (v0 :: vs) with
        | error e => rw [hrv] at h; simp at h
        | ok nv =>
          rw [hrv] at h
          cases hrec : rewriteItems d rest with
          | error e => rw [hrec] at h; simp at h
          | ok r' =>
            rw [hrec] at h
            simp only [Except.ok.injEq] at h
            subst h
            refine List.Forall₂.cons ?_ (ih r' hrec)
            intro hmem
            rw [hv] at hmem
            simp only [List.getD_cons_zero] at hmem
            exact absurd hmem hstar

/-- C6: make_latin invokes the secondary transducer exactly once, on a
duplicate-free batch whose members are exactly the stems occurring in the
variants of the non-unknown items. -/
theorem claim_C6_batch :
    ∀ lookup items res bs,
      make_latin lookup items = .ok (res, bs) →
      ∃ batch, bs = [batch] ∧ batch.Nodup ∧
        (∀ s, s ∈ batch ↔ ∃ it ∈ items, '*' ∉ it.out_variants.getD 0 [] ∧
          ∃ v ∈ it.out_variants, get_stem v = .ok s) := by
  intro lookup items res bs h
  rw [make_latin] at h
  cases hg : gatherStems items [] with
  | error e => rw [hg] at h; simp at h
  | ok batch =>
    simp only [hg] at h
    obtain ⟨hmem, hnd⟩ := gatherStems_spec items [] batch hg
    cases hrw : rewriteItems
        (applyLookup (batch.map (fun k => (k, []))) (lookup batch)) items with
    | error e =>
      simp only [hrw] at h
      exact Except.noConfusion h
    | ok res' =>
      simp only [hrw] at h
      simp only [Except.ok.injEq, Prod.mk.injEq] at h
      obtain ⟨-, h2⟩ := h
      refine ⟨batch, h2.symm, hnd (List.nodup_nil), ?_⟩
      intro s
      rw [hmem s]
      simp

/-- Witness for C6: two items sharing the stem `car` produce the
duplicate-free batch [car, dog]. -/
theorem claim_C6_witness :
    ∃ batch, [[chars "car", chars "dog"]] = [batch] ∧ batch.Nodup ∧
      (∀ s, s ∈ batch ↔
        ∃ it ∈ [(⟨chars "a", [chars "car<n>"]⟩ : ParsedItem),
                ⟨chars "b", [chars "car<v>", chars "dog<n>"]⟩],
          '*' ∉ it.out_variants.getD 0 [] ∧
          ∃ v ∈ it.out_variants, get_stem v = .ok s) :=
  claim_C6_batch (fun _ => [])
    [⟨chars "a", [chars "car<n>"]⟩, ⟨chars "b", [chars "car<v>", chars "dog<n>"]⟩]
    [⟨chars "a", []⟩, ⟨chars "b", []⟩] [[chars "car", chars "dog"]] (by decide)

/-- C8 counterexample: the item `a` is unknown (first variant `*`), its
second variant `car<n>` has stem `car`, and that stem is in the lookup
batch because the recognized item `b` shares it — so "no stem of such an
item is included in the lookup batch" fails as literally stated. -/
theorem claim_C8_counterexample :
    '*' ∈ (⟨chars "a", [chars "*", chars "car<n>"]⟩ : ParsedItem).out_variants.getD 0 [] ∧
    chars "car<n>" ∈ (⟨chars "a", [chars "*", chars "car<n>"]⟩ : ParsedItem).out_variants ∧
    get_stem (chars "car<n>") = .ok (chars "car") ∧
    make_latin (fun _ => [])
      [⟨chars "a", [chars "*", chars "car<n>"]⟩, ⟨chars "b", [chars "car<n>"]⟩] =
      .ok ([⟨chars "a", [chars "*", chars "car<n>"]⟩, ⟨chars "b", []⟩],
           [[chars "car"]]) ∧
    chars "car" ∈ [chars "car"] := by
  decide

/-- C8 (amended): make_latin leaves every unknown item untouched (its
variants list is exactly the same afterwards), and unknown items contribute
no stems to the lookup batch: every stem in the batch is the stem of a
variant of some non-unknown item (though a stem of an unknown item's
variant may still appear in the batch when a non-unknown item shares it). -/
theorem claim_C8_unknown_frame :
    ∀ lookup items res bs,
      make_latin lookup items = .ok (res, bs) →
      List.Forall₂ (fun old new => '*' ∈ old.out_variants.getD 0 [] → new = old)
        items res ∧
      (∀ b ∈ bs, ∀ s ∈ b, ∃ it ∈ items, '*' ∉ it.out_variants.getD 0 [] ∧
        ∃ v ∈ it.out_variants, get_stem v = .ok s) := by
  intro lookup items res bs h
  rw [make_latin] at h
  cases hg : gatherStems items [] with
  | error e => rw [hg] at h; simp at h
  | ok batch =>
    simp only [hg] at h
    obtain ⟨hmem, -⟩ := gatherStems_spec items [] batch hg
    cases hrw : rewriteItems
        (applyLookup (batch.map (fun k => (k, []))) (lookup batch)) items with
    | error e =>
      simp only [hrw] at h
      exact Except.noConfusion h
    | ok res' =>
      simp only [hrw] at h
      simp only [Except.ok.injEq, Prod.mk.injEq] at h
      obtain ⟨h1, h2⟩ := h
      subst h1
      constructor
      · exact rewriteItems_frame _ items _ hrw
      · intro b hb s hs
        rw [← h2] at hb
        rw [List.mem_singleton.1 hb] at hs
        have := (hmem s).1 hs
        simpa using this

/-- Witness for C8: a run whose only item is unknown leaves it untouched
and sends the empty batch. -/
theorem claim_C8_witness :
    List.Forall₂ (fun old new => '*' ∈ old.out_variants.getD 0 [] → new = old)
      [(⟨chars "x", [chars "*"]⟩ : ParsedItem)] [⟨chars "x", [chars "*"]⟩] ∧
    (∀ b ∈ [([] : List (List Char))], ∀ s ∈ b,
      ∃ it ∈ [(⟨chars "x", [chars "*"]⟩ : ParsedItem)],
        '*' ∉ it.out_variants.getD 0 [] ∧
        ∃ v ∈ it.out_variants, get_stem v = .ok s) :=
  claim_C8_unknown_frame (fun _ => []) [⟨chars "x", [chars "*"]⟩]
    [⟨chars "x", [chars "*"]⟩] [[]] (by decide)

end ShughniEval
